import Mathlib

/-!
Verification of the `dedup` duplicate-file finder (package `internal/dup`
plus the `main` driver) against its natural-language specification.

The Go source is shallowly embedded: Go `int` becomes `Int` (Go `/` on
`int` truncates toward zero, i.e. `Int.tdiv`); byte streams become
`List Nat`; strings become `List Char`; fallible functions return
`Except`/`Option`.  Effectful parts (log calls, the compare-call trace,
handler invocations) are made explicit as data carried in the state.
-/

namespace Dedup

/-- Embedding of `dup.Offset` (part_000 lines 322-325):
`(n*row + col) - (((row+1)*(row+1)-(row+1))/2 + row + 1)`.
Go division on `int` truncates toward zero, hence `Int.tdiv`. -/
def Offset (n row col : Int) : Int :=
  (n * row + col) - (((row + 1) * (row + 1) - (row + 1)).tdiv 2 + row + 1)

/-- Closed form of `Offset` once the exact division is eliminated:
`row * (row + 1)` is even, with half `k`. -/
lemma Offset_eq (n row col k : Int) (hk : row * (row + 1) = k + k) :
    Offset n row col = n * row + col - k - row - 1 := by
  unfold Offset
  rw [show (row + 1) * (row + 1) - (row + 1) = 2 * k by linear_combination hk]
  rw [Int.mul_tdiv_cancel_left _ (by norm_num : (2:Int) ≠ 0)]
  ring

/-- The slot `Offset n row col` is bounded: `2 * Offset + 2 ≤ n*n - n`
for `0 ≤ row < col < n`. -/
lemma Offset_two_mul_le (n row col : Int) (hr : 0 ≤ row) (hrc : row < col)
    (hcn : col < n) : 2 * Offset n row col + 2 ≤ n * n - n := by
  obtain ⟨k, hk⟩ := Int.even_mul_succ_self row
  rw [Offset_eq n row col k hk]
  nlinarith [mul_nonneg (show (0:Int) ≤ n - row - 2 by linarith)
      (show (0:Int) ≤ n - row - 1 by linarith), hk]

/-- The slot `Offset n row col` is non-negative for `0 ≤ row < col`. -/
lemma Offset_nonneg (n row col : Int) (hr : 0 ≤ row) (hrc : row < col)
    (hcn : col < n) : 0 ≤ Offset n row col := by
  obtain ⟨k, hk⟩ := Int.even_mul_succ_self row
  rw [Offset_eq n row col k hk]
  nlinarith [mul_nonneg hr (show (0:Int) ≤ 2 * n - row - 1 by linarith), hk]

/-- C1: for every `n ≥ 2` and `0 ≤ row < col < n`, `Offset n row col`
lies in `[0, n*(n-1)/2)`, the map `(row, col) ↦ Offset n row col` is
injective across all such pairs for that `n`, and `Offset` equals the
formula `row*n + col - row*(row+1)/2 - (row+1)`. -/
theorem Offset_bijection (n row col : Int) (hn : 2 ≤ n) (hr : 0 ≤ row)
    (hrc : row < col) (hcn : col < n) :
    (0 ≤ Offset n row col ∧ Offset n row col < n * (n - 1) / 2) ∧
    (∀ row' col', 0 ≤ row' → row' < col' → col' < n →
      Offset n row col = Offset n row' col' → row = row' ∧ col = col') ∧
    Offset n row col = row * n + col - row * (row + 1) / 2 - (row + 1) := by
  obtain ⟨k, hk⟩ := Int.even_mul_succ_self row
  have hOff := Offset_eq n row col k hk
  refine ⟨⟨Offset_nonneg n row col hr hrc hcn, ?_⟩, ?_, ?_⟩
  · obtain ⟨m, hm⟩ := Int.even_mul_succ_self (n - 1)
    have h2 : n * (n - 1) / 2 = m := by
      rw [show n * (n - 1) = 2 * m by linear_combination hm]
      exact Int.mul_ediv_cancel_left _ (by norm_num)
    have hb := Offset_two_mul_le n row col hr hrc hcn
    rw [h2]
    have hmm : m + m = n * n - n := by linear_combination -hm
    linarith
  · intro row' col' hr' hrc' hcn' heq
    obtain ⟨k', hk'⟩ := Int.even_mul_succ_self row'
    rw [hOff, Offset_eq n row' col' k' hk'] at heq
    have hrr : row = row' := by
      by_contra hne
      rcases lt_or_gt_of_ne hne with hlt | hgt
      · nlinarith [mul_nonneg (show (0:Int) ≤ row' - row - 1 by linarith)
          (show (0:Int) ≤ 2 * n - row - row' - 3 by linarith), hk, hk']
      · nlinarith [mul_nonneg (show (0:Int) ≤ row - row' - 1 by linarith)
          (show (0:Int) ≤ 2 * n - row - row' - 3 by linarith), hk, hk']
    subst hrr
    have hkk : k = k' := by linarith
    exact ⟨rfl, by linarith⟩
  · have h2 : row * (row + 1) / 2 = k := by
      rw [show row * (row + 1) = 2 * k by linear_combination hk]
      exact Int.mul_ediv_cancel_left _ (by norm_num)
    rw [hOff, h2]; ring

/-- Witness for C1 at `n = 3, row = 1, col = 2` (slot 2, cf. `TestOffset`). -/
theorem Offset_bijection_witness :
    (0 ≤ Offset 3 1 2 ∧ Offset 3 1 2 < 3 * (3 - 1) / 2) ∧
    (∀ row' col', 0 ≤ row' → row' < col' → col' < 3 →
      Offset 3 1 2 = Offset 3 row' col' → 1 = row' ∧ 2 = col') ∧
    Offset 3 1 2 = 1 * 3 + 2 - 1 * (1 + 1) / 2 - (1 + 1) :=
  Offset_bijection 3 1 2 (by norm_num) (by norm_num) (by norm_num) (by norm_num)

/-! ## PairwiseDeduplicator: `dup.IndexesContext` (part_000 lines 141-217)

Effects are made explicit: the issued compare calls (with the outcome the
compare function returned) are recorded in `calls`, and an erroring
compare function is modelled as returning `none` (the Go code logs the
pair and continues).  `duplicates` is the returned index slice. -/

/-- Embedding of the Go tri-state `selection` (part_000 lines 211-217). -/
inductive selection where
  | None
  | Left
  | Right
  deriving DecidableEq, Repr

/-- `Offset` as used to index the Go `skipMatrix` slice: all arguments are
non-negative there, so the slice index is `toNat` of `Offset`. -/
def offsetNat (n row col : Nat) : Nat := (Offset n row col).toNat

/-- The skip-matrix slot of an in-range pair is within the slice allocated
as `make([]bool, (n*n-n)/2)` (part_000 lines 154-156). -/
lemma offsetNat_lt (n row col : Nat) (hrc : row < col) (hcn : col < n) :
    offsetNat n row col < (n * n - n) / 2 := by
  have hr : (0:Int) ≤ (row:Int) := Int.ofNat_nonneg row
  have hrc' : (row:Int) < (col:Int) := by exact_mod_cast hrc
  have hcn' : (col:Int) < (n:Int) := by exact_mod_cast hcn
  have h0 := Offset_nonneg (n:Int) row col hr hrc' hcn'
  have hb := Offset_two_mul_le (n:Int) row col hr hrc' hcn'
  have htn : ((offsetNat n row col : Nat) : Int) = Offset (n:Int) row col :=
    Int.toNat_of_nonneg h0
  have hnn : n ≤ n * n := Nat.le_mul_of_pos_left n (by omega)
  have hb' : 2 * offsetNat n row col + 2 ≤ n * n - n := by
    have hcast : ((2 * offsetNat n row col + 2 : Nat) : Int)
        ≤ ((n * n - n : Nat) : Int) := by
      calc ((2 * offsetNat n row col + 2 : Nat) : Int)
          = 2 * Offset (n:Int) row col + 2 := by push_cast [htn]; ring
        _ ≤ (n:Int) * (n:Int) - (n:Int) := hb
        _ = ((n * n - n : Nat) : Int) := by rw [Nat.cast_sub hnn]; push_cast; ring
    exact_mod_cast hcast
  generalize hM : n * n - n = M at hb' ⊢
  omega

/-- The mutable per-group state of one `IndexesContext` pass, together
with the trace of issued compare calls (left index, right index, outcome;
`none` = the compare function returned an error). -/
structure DedupState where
  skipMatrix : List Bool
  duplicates : List Nat
  calls : List (Nat × Nat × Option selection)
  deriving DecidableEq, Repr

/-- The Go marking loop
`for c := start; c < n; c++ { skipMatrix[Offset(n, i, c)] = true }`
(part_000 lines 190-192 and 195-197), as a fold over the loop's
iteration space `[c, n)`. -/
def markSkip (n i c : Nat) (sm : List Bool) : List Bool :=
  (List.range' c (n - c)).foldl (fun m c' => m.set (offsetNat n i c') true) sm

/-- One inner-loop iteration of `IndexesContext` (part_000 lines 160-202):
check the skip matrix, otherwise issue the compare call (recording it in
the trace) and dispatch on the outcome. -/
def pairStep {T : Type} [Inhabited T] (input : List T)
    (compareFn : T → T → Option selection) (n row col : Nat)
    (st : DedupState) : DedupState :=
  if st.skipMatrix.getD (offsetNat n row col) false then st
  else
    match compareFn (input.getD row default) (input.getD col default) with
    | none => { st with calls := st.calls ++ [(row, col, none)] }
    | some selection.None =>
        { st with calls := st.calls ++ [(row, col, some selection.None)] }
    | some selection.Left =>
        { st with calls := st.calls ++ [(row, col, some selection.Left)],
                  skipMatrix := markSkip n row (col + 1) st.skipMatrix,
                  duplicates := st.duplicates ++ [row] }
    | some selection.Right =>
        { st with calls := st.calls ++ [(row, col, some selection.Right)],
                  skipMatrix := markSkip n col (col + 1) st.skipMatrix,
                  duplicates := st.duplicates ++ [col] }

/-- Embedding of `dup.IndexesContext` (part_000 lines 153-206): the two
nested loops `for row := 0; row < n-1` / `for col := row+1; col < n`
over the state initialised with `make([]bool, (n*n-n)/2)`. -/
def IndexesContextState {T : Type} [Inhabited T] (input : List T)
    (compareFn : T → T → Option selection) : DedupState :=
  (List.range (input.length - 1)).foldl
    (fun st row =>
      (List.range' (row + 1) (input.length - (row + 1))).foldl
        (fun st col => pairStep input compareFn input.length row col st) st)
    ⟨List.replicate ((input.length * input.length - input.length) / 2) false, [], []⟩

/-- The duplicate index list returned by `dup.IndexesContext`. -/
def IndexesContext {T : Type} [Inhabited T] (input : List T)
    (compareFn : T → T → Option selection) : List Nat :=
  (IndexesContextState input compareFn).duplicates

/-- The index an issued call decides, if any: the left index on a `Left`
outcome (part_000 line 193), the right index on a `Right` outcome
(part_000 line 198). -/
def decided : Nat × Nat × Option selection → Option Nat
  | (a, _, some selection.Left) => some a
  | (_, b, some selection.Right) => some b
  | _ => none

/-! ### Skip-matrix helper lemmas -/

lemma getD_set_true (l : List Bool) (j : Nat) (h : j < l.length) :
    (l.set j true).getD j false = true := by
  induction l generalizing j with
  | nil => simp at h
  | cons a t ih =>
    cases j with
    | zero => rfl
    | succ j => simpa using ih j (by simpa using h)

lemma getD_set_other (l : List Bool) (j m : Nat) (a : Bool) (h : m ≠ j) :
    (l.set m a).getD j false = l.getD j false := by
  induction l generalizing j m with
  | nil => rfl
  | cons b t ih =>
    cases m with
    | zero => cases j with
      | zero => exact absurd rfl h
      | succ j => rfl
    | succ m => cases j with
      | zero => rfl
      | succ j => simpa using ih j m (by omega)

lemma getD_set_mono (l : List Bool) (j m : Nat)
    (h : l.getD j false = true) : (l.set m true).getD j false = true := by
  by_cases hm : m = j
  · subst hm
    have hj : m < l.length := by
      by_contra hj
      rw [List.getD_eq_default _ _ (by omega)] at h
      exact Bool.false_ne_true h
    exact getD_set_true l m hj
  · rw [getD_set_other l j m true hm]; exact h

lemma setTrue_foldl_length (n i : Nat) :
    ∀ (l : List Nat) (sm : List Bool),
      (l.foldl (fun m c' => m.set (offsetNat n i c') true) sm).length
        = sm.length := by
  intro l
  induction l with
  | nil => intro sm; rfl
  | cons a t ih => intro sm; rw [List.foldl_cons, ih, List.length_set]

lemma setTrue_foldl_mono (n i : Nat) :
    ∀ (l : List Nat) (sm : List Bool) (j : Nat), sm.getD j false = true →
      (l.foldl (fun m c' => m.set (offsetNat n i c') true) sm).getD j false
        = true := by
  intro l
  induction l with
  | nil => intro sm j h; exact h
  | cons a t ih =>
    intro sm j h
    rw [List.foldl_cons]
    exact ih _ j (getD_set_mono _ _ _ h)

lemma setTrue_foldl_marks (n i : Nat) :
    ∀ (l : List Nat) (sm : List Bool) (c₀ : Nat),
      c₀ ∈ l → offsetNat n i c₀ < sm.length →
      (l.foldl (fun m c' => m.set (offsetNat n i c') true) sm).getD
        (offsetNat n i c₀) false = true := by
  intro l
  induction l with
  | nil => intro sm c₀ h _; simp at h
  | cons a t ih =>
    intro sm c₀ hmem hb
    rw [List.foldl_cons]
    rcases List.mem_cons.mp hmem with rfl | hmem'
    · exact setTrue_foldl_mono n i t _ _ (getD_set_true _ _ hb)
    · exact ih _ c₀ hmem' (by rw [List.length_set]; exact hb)

lemma markSkip_length (n i c : Nat) (sm : List Bool) :
    (markSkip n i c sm).length = sm.length :=
  setTrue_foldl_length n i _ sm

lemma markSkip_mono (n i c : Nat) (sm : List Bool) (j : Nat)
    (h : sm.getD j false = true) :
    (markSkip n i c sm).getD j false = true :=
  setTrue_foldl_mono n i _ sm j h

/-- After `markSkip n i c sm`, every slot `(i, c₀)` with `c ≤ c₀ < n` and
`i < c₀` reads back `true`, provided `sm` has the allocated size. -/
lemma markSkip_marks (n i c : Nat) (sm : List Bool) (c₀ : Nat)
    (hc₀ : c ≤ c₀) (hcn : c₀ < n) (hic : i < c₀)
    (hlen : sm.length = (n * n - n) / 2) :
    (markSkip n i c sm).getD (offsetNat n i c₀) false = true := by
  refine setTrue_foldl_marks n i _ sm c₀ ?_ ?_
  · rw [List.mem_range'_1]; omega
  · rw [hlen]; exact offsetNat_lt n i c₀ hic hcn

/-! ### The row-major scan order and the pass invariant -/

/-- The row-major pair sequence scanned by the two nested loops. -/
def pairList (n : Nat) : List (Nat × Nat) :=
  ((List.range (n - 1)).map (fun row =>
    (List.range' (row + 1) (n - (row + 1))).map (fun col => (row, col)))).flatten

/-- Strict lexicographic (scan) order on pairs. -/
def lexLT (p q : Nat × Nat) : Prop := p.1 < q.1 ∨ (p.1 = q.1 ∧ p.2 < q.2)

lemma pairList_shape {n : Nat} {p : Nat × Nat} (hp : p ∈ pairList n) :
    p.1 < p.2 ∧ p.2 < n := by
  unfold pairList at hp
  rw [List.mem_flatten] at hp
  obtain ⟨l, hl, hpl⟩ := hp
  rw [List.mem_map] at hl
  obtain ⟨row, hrow, rfl⟩ := hl
  rw [List.mem_map] at hpl
  obtain ⟨col, hcol, rfl⟩ := hpl
  rw [List.mem_range'_1] at hcol
  exact ⟨by omega, by omega⟩

lemma pairList_sorted (n : Nat) : (pairList n).Pairwise lexLT := by
  unfold pairList
  rw [List.pairwise_flatten]
  constructor
  · intro l hl
    rw [List.mem_map] at hl
    obtain ⟨row, _, rfl⟩ := hl
    rw [List.pairwise_map]
    refine (List.pairwise_lt_range' _ _ 1 (by omega)).imp ?_
    intro a b hab
    exact Or.inr ⟨rfl, hab⟩
  · rw [List.pairwise_map]
    refine (List.pairwise_lt_range _).imp ?_
    intro r1 r2 h12 p hp q hq
    rw [List.mem_map] at hp hq
    obtain ⟨c1, _, rfl⟩ := hp
    obtain ⟨c2, _, rfl⟩ := hq
    exact Or.inl h12

lemma IndexesContextState_eq_foldl {T : Type} [Inhabited T] (input : List T)
    (compareFn : T → T → Option selection) :
    IndexesContextState input compareFn =
      (pairList input.length).foldl
        (fun st p => pairStep input compareFn input.length p.1 p.2 st)
        ⟨List.replicate ((input.length * input.length - input.length) / 2) false,
          [], []⟩ := by
  unfold IndexesContextState pairList
  rw [List.foldl_flatten, List.foldl_map]
  simp only [List.foldl_map]

/-- The trace property behind claims C2/C3: after a call decides an
index, no later call has that index as the left (row) element. -/
def goodTrace (l : List (Nat × Nat × Option selection)) : Prop :=
  ∀ pre e post, l = pre ++ e :: post →
    ∀ i, decided e = some i → ∀ e' ∈ post, e'.1 ≠ i

/-- Invariant carried through a pass, relative to the pairs `rem` still
to be scanned: allocated skip-matrix size; every pair still to come whose
left element is an already-decided index is marked; every decision in the
trace is recorded in `duplicates`; `duplicates` is exactly the decided
indices of the trace in order; decided indices are valid; and the trace
property holds so far. -/
def Inv (n : Nat) (st : DedupState) (rem : List (Nat × Nat)) : Prop :=
  st.skipMatrix.length = (n * n - n) / 2 ∧
  (∀ i ∈ st.duplicates, ∀ p ∈ rem, p.1 = i →
    st.skipMatrix.getD (offsetNat n p.1 p.2) false = true) ∧
  (∀ e ∈ st.calls, ∀ i, decided e = some i → i ∈ st.duplicates) ∧
  st.duplicates = st.calls.filterMap decided ∧
  (∀ i ∈ st.duplicates, i < n) ∧
  goodTrace st.calls

lemma goodTrace_nil : goodTrace [] := by
  intro pre e post heq
  exact absurd heq.symm (by simp)

lemma goodTrace_append (l : List (Nat × Nat × Option selection))
    (e₀ : Nat × Nat × Option selection) (hl : goodTrace l)
    (h : ∀ e ∈ l, ∀ i, decided e = some i → e₀.1 ≠ i) :
    goodTrace (l ++ [e₀]) := by
  intro pre e post heq i hdec e' he'
  rcases List.eq_nil_or_concat post with rfl | ⟨post₀, plast, rfl⟩
  · simp at he'
  · rw [List.concat_eq_append] at heq he'
    have heq' : l ++ [e₀] = (pre ++ e :: post₀) ++ [plast] := by
      rw [heq]; simp
    obtain ⟨hll, hee⟩ := List.append_inj' heq' rfl
    have he₀ : e₀ = plast := by simpa using hee
    rw [List.mem_append] at he'
    rcases he' with he' | he'
    · exact hl pre e post₀ hll i hdec e' he'
    · have : e' = e₀ := by simp at he'; rw [he', he₀]
      have hmem : e ∈ l := by rw [hll]; simp
      rw [this]
      exact h e hmem i hdec
/-- One scan step preserves the pass invariant. -/
lemma pairStep_inv {T : Type} [Inhabited T] (input : List T)
    (fn : T → T → Option selection) (n : Nat) (p : Nat × Nat)
    (rest : List (Nat × Nat)) (st : DedupState)
    (hshape : p.1 < p.2 ∧ p.2 < n)
    (hrest : ∀ q ∈ rest, lexLT p q ∧ q.1 < q.2 ∧ q.2 < n)
    (hinv : Inv n st (p :: rest)) :
    Inv n (pairStep input fn n p.1 p.2 st) rest := by
  obtain ⟨I1, I2, I3, I4, I5, I6⟩ := hinv
  unfold pairStep
  by_cases hskip : st.skipMatrix.getD (offsetNat n p.1 p.2) false = true
  · rw [if_pos hskip]
    exact ⟨I1, fun i hi q hq h1 => I2 i hi q (List.mem_cons_of_mem _ hq) h1,
      I3, I4, I5, I6⟩
  · rw [if_neg hskip]
    have hnew : ∀ (o : Option selection), ∀ e ∈ st.calls, ∀ i,
        decided e = some i → (p.1, p.2, o).1 ≠ i := by
      intro o e he i hdec hcontra
      exact hskip (I2 i (I3 e he i hdec) p (List.mem_cons_self _ _) hcontra)
    rcases hf : fn (input.getD p.1 default) (input.getD p.2 default) with _ | sel
    · refine ⟨I1, ?_, ?_, ?_, I5, goodTrace_append _ _ I6 (hnew none)⟩
      · intro i hi q hq h1; exact I2 i hi q (List.mem_cons_of_mem _ hq) h1
      · intro e he i hdec
        rcases List.mem_append.mp he with he | he
        · exact I3 e he i hdec
        · simp only [List.mem_singleton] at he
          subst he
          simp [decided] at hdec
      · rw [List.filterMap_append, I4]; simp [decided]
    · cases sel with
      | None =>
        refine ⟨I1, ?_, ?_, ?_, I5,
          goodTrace_append _ _ I6 (hnew (some selection.None))⟩
        · intro i hi q hq h1; exact I2 i hi q (List.mem_cons_of_mem _ hq) h1
        · intro e he i hdec
          rcases List.mem_append.mp he with he | he
          · exact I3 e he i hdec
          · simp only [List.mem_singleton] at he
            subst he
            simp [decided] at hdec
        · rw [List.filterMap_append, I4]; simp [decided]
      | Left =>
        refine ⟨?_, ?_, ?_, ?_, ?_,
          goodTrace_append _ _ I6 (hnew (some selection.Left))⟩
        · simpa [markSkip_length n p.1 (p.2 + 1) st.skipMatrix]
            using I1
        · intro i hi q hq h1
          rcases List.mem_append.mp hi with hi | hi
          · exact markSkip_mono n p.1 (p.2 + 1) _ _
              (I2 i hi q (List.mem_cons_of_mem _ hq) h1)
          · simp only [List.mem_singleton] at hi
            subst hi
            obtain ⟨hlex, hq1, hq2⟩ := hrest q hq
            have hq2' : p.2 < q.2 := by
              rcases hlex with h | ⟨heq, h⟩
              · omega
              · exact h
            rw [h1]
            exact markSkip_marks n p.1 (p.2 + 1) _ q.2 (by omega)
              hq2 (by omega) I1
        · intro e he i hdec
          rcases List.mem_append.mp he with he | he
          · exact List.mem_append_left _ (I3 e he i hdec)
          · simp only [List.mem_singleton] at he
            subst he
            simp only [decided, Option.some.injEq] at hdec
            subst hdec
            exact List.mem_append_right _ (by simp)
        · rw [List.filterMap_append, I4]; simp [decided]
        · intro i hi
          rcases List.mem_append.mp hi with hi | hi
          · exact I5 i hi
          · simp only [List.mem_singleton] at hi
            subst hi
            omega
      | Right =>
        refine ⟨?_, ?_, ?_, ?_, ?_,
          goodTrace_append _ _ I6 (hnew (some selection.Right))⟩
        · simpa [markSkip_length n p.2 (p.2 + 1) st.skipMatrix]
            using I1
        · intro i hi q hq h1
          rcases List.mem_append.mp hi with hi | hi
          · exact markSkip_mono n p.2 (p.2 + 1) _ _
              (I2 i hi q (List.mem_cons_of_mem _ hq) h1)
          · simp only [List.mem_singleton] at hi
            subst hi
            obtain ⟨hlex, hq1, hq2⟩ := hrest q hq
            rw [h1]
            exact markSkip_marks n p.2 (p.2 + 1) _ q.2 (by omega)
              hq2 (by omega) I1
        · intro e he i hdec
          rcases List.mem_append.mp he with he | he
          · exact List.mem_append_left _ (I3 e he i hdec)
          · simp only [List.mem_singleton] at he
            subst he
            simp only [decided, Option.some.injEq] at hdec
            subst hdec
            exact List.mem_append_right _ (by simp)
        · rw [List.filterMap_append, I4]; simp [decided]
        · intro i hi
          rcases List.mem_append.mp hi with hi | hi
          · exact I5 i hi
          · simp only [List.mem_singleton] at hi
            subst hi
            omega

/-- The whole scan preserves the invariant down to an empty remainder. -/
lemma foldl_inv {T : Type} [Inhabited T] (input : List T)
    (fn : T → T → Option selection) (n : Nat) :
    ∀ (rem : List (Nat × Nat)) (st : DedupState),
      rem.Pairwise lexLT → (∀ q ∈ rem, q.1 < q.2 ∧ q.2 < n) →
      Inv n st rem →
      Inv n (rem.foldl (fun st p => pairStep input fn n p.1 p.2 st) st) [] := by
  intro rem
  induction rem with
  | nil => intro st _ _ h; exact h
  | cons p rest ih =>
    intro st hsort hshape hinv
    rw [List.foldl_cons]
    rw [List.pairwise_cons] at hsort
    refine ih _ hsort.2 (fun q hq => hshape q (List.mem_cons_of_mem _ hq)) ?_
    exact pairStep_inv input fn n p rest st
      (hshape p (List.mem_cons_self _ _))
      (fun q hq => ⟨hsort.1 q hq, hshape q (List.mem_cons_of_mem _ hq)⟩)
      hinv

/-- The invariant holds of the state returned by `IndexesContextState`. -/
lemma IndexesContext_inv {T : Type} [Inhabited T] (input : List T)
    (fn : T → T → Option selection) :
    Inv input.length (IndexesContextState input fn) [] := by
  rw [IndexesContextState_eq_foldl]
  refine foldl_inv input fn input.length (pairList input.length) _
    (pairList_sorted _) (fun q hq => pairList_shape hq) ?_
  refine ⟨by simp, by simp, by simp, by simp, by simp, goodTrace_nil⟩

/-- Concrete three-element candidate list used in counterexamples. -/
def cexInput : List Nat := [0, 1, 2]

/-- Compare function for the counterexamples: the pair `(0,1)` is not a
duplicate pair; every other compared pair selects its right element as
the duplicate. -/
def cexCompare (a b : Nat) : Option selection :=
  if a = 0 ∧ b = 1 then some selection.None else some selection.Right

/-- C2 (amended): for every candidate list and compare function, once an
index is placed in the result set via a Left or Right outcome, no further
compare call is issued with that index as the left (row) element of the
pair, for the remainder of the pass.  (For a Left-decided index this
covers every further occurrence, since all pairs with it on the right
were scanned earlier; a Right-decided index may still appear as the right
element of later calls — see the counterexample.) -/
theorem skip_soundness {T : Type} [Inhabited T] (input : List T)
    (compareFn : T → T → Option selection)
    (pre : List (Nat × Nat × Option selection))
    (e : Nat × Nat × Option selection)
    (post : List (Nat × Nat × Option selection))
    (hsplit : (IndexesContextState input compareFn).calls = pre ++ e :: post)
    (i : Nat) (hdec : decided e = some i) :
    ∀ e' ∈ post, e'.1 ≠ i :=
  (IndexesContext_inv input compareFn).2.2.2.2.2 pre e post hsplit i hdec

/-- Witness for C2: in the `cexInput` pass, the call `(0,2)` decides
index 2, and the later call `(1,2)` has left element `1 ≠ 2`. -/
theorem skip_soundness_witness :
    ((1, 2, some selection.Right) : Nat × Nat × Option selection).1 ≠ 2 :=
  skip_soundness cexInput cexCompare [(0, 1, some selection.None)]
    (0, 2, some selection.Right) [(1, 2, some selection.Right)]
    (by decide) 2 (by decide) (1, 2, some selection.Right) (by simp)

/-- C2 fails as literally stated ("no further compare call for any pair
containing the index as its earlier-decided role"): with
`cexInput`/`cexCompare`, index 2 is decided in the right role by the call
`(0,2)`, yet the later call `(1,2)` again contains index 2 as its right
element. -/
theorem skip_role_counterexample :
    ¬ (∀ (pre : List (Nat × Nat × Option selection)) e post,
        (IndexesContextState cexInput cexCompare).calls = pre ++ e :: post →
        (e.2.2 = some selection.Left → ∀ e' ∈ post, e'.1 ≠ e.1) ∧
        (e.2.2 = some selection.Right → ∀ e' ∈ post, e'.2.1 ≠ e.2.1)) := by
  intro h
  have h2 := (h [(0, 1, some selection.None)] (0, 2, some selection.Right)
    [(1, 2, some selection.Right)] (by decide)).2 rfl
    (1, 2, some selection.Right) (by simp)
  exact h2 rfl

/-- C3 (amended): the returned duplicates list is exactly the sequence of
indices decided by the Left/Right outcomes of the issued compare calls,
in call order (hence `main.run`'s handler fires once per returned entry,
in emission order), and every returned index is a valid index into the
candidate list.  For arbitrary compare functions the returned list need
not be duplicate-free nor in ascending index order — see the
counterexample. -/
theorem duplicates_decided {T : Type} [Inhabited T] (input : List T)
    (compareFn : T → T → Option selection) :
    IndexesContext input compareFn
        = ((IndexesContextState input compareFn).calls).filterMap decided ∧
    ∀ i ∈ IndexesContext input compareFn, i < input.length :=
  ⟨(IndexesContext_inv input compareFn).2.2.2.1,
   (IndexesContext_inv input compareFn).2.2.2.2.1⟩

/-- Witness for C3: index 2 is in the duplicates of the `cexInput` pass
and is a valid index. -/
theorem duplicates_decided_witness : (2 : Nat) < cexInput.length :=
  (duplicates_decided cexInput cexCompare).2 2 (by decide)

/-- C3 fails as stated: with `cexInput`/`cexCompare` the deduplicator
returns `[2, 2]` — index 2 occurs twice, so the result is not a set of
indices and the handler would be invoked twice for index 2. -/
theorem duplicates_not_set :
    IndexesContext cexInput cexCompare = [2, 2] ∧
    ¬ (IndexesContext cexInput cexCompare).Nodup := by
  exact ⟨by decide, by decide⟩

/-- C10: for every input list of length 0 or 1 and every compare
function, `IndexesContext` issues no compare calls and returns the empty
duplicate list. -/
theorem indexes_small {T : Type} [Inhabited T] (input : List T)
    (compareFn : T → T → Option selection) (h : input.length ≤ 1) :
    IndexesContext input compareFn = [] ∧
    (IndexesContextState input compareFn).calls = [] := by
  have h0 : input.length - 1 = 0 := by omega
  unfold IndexesContext IndexesContextState
  rw [h0]
  simp

/-- Witness for C10 at the empty candidate list. -/
theorem indexes_small_witness :
    IndexesContext ([] : List Nat) (fun _ _ => some selection.None) = [] ∧
    (IndexesContextState ([] : List Nat)
      (fun _ _ => some selection.None)).calls = [] :=
  indexes_small [] _ (by decide)

/-! ## ContentComparator: `dup.equalFile` (part_000 lines 266-320)

The two buffered streams are embedded as byte lists (claim C4 is about
uncancelled, error-free streams, so the cancellation check and the
final non-EOF-error branch never fire).  A `bufio` read on content `a`
yields `min 4096 |a|` bytes and reports `io.EOF` exactly when `a` is
empty; `io.ReadFull` on `b` asked for `n1` bytes yields `min n1 |b|`
bytes.  The `reads` accumulator counts loop iterations (one chunk read
from stream A per iteration). -/

/-- The reachable failure mode of `equalFile` on error-free streams: the
`n1 != n2` read-size mismatch (part_000 lines 287-289). -/
inductive CmpError where
  | readSizeMismatch
  deriving DecidableEq, Repr

/-- The `equalFile` loop (part_000 lines 276-319). -/
def equalFileAux (a b : List Nat) (reads : Nat) :
    (Except CmpError Bool) × Nat :=
  if (a.take 4096).length ≠ (b.take (a.take 4096).length).length then
    (.error .readSizeMismatch, reads + 1)
  else if a.take 4096 ≠ b.take (a.take 4096).length then (.ok false, reads + 1)
  else if h : a.isEmpty then (.ok true, reads + 1)
  else equalFileAux (a.drop 4096) (b.drop (a.take 4096).length) (reads + 1)
termination_by a.length
decreasing_by
  have ha : a ≠ [] := by simpa [List.isEmpty_iff] using h
  have hpos : 0 < a.length := List.length_pos.mpr ha
  simp only [List.length_drop]
  omega

/-- The verdict of `dup.equalFile` on two error-free streams. -/
def equalFile (a b : List Nat) : Except CmpError Bool := (equalFileAux a b 0).1

/-- How many chunk reads `dup.equalFile` issues on stream A before
returning its verdict. -/
def equalFileReads (a b : List Nat) : Nat := (equalFileAux a b 0).2

/-- Index of the first differing byte (length of the longest common
prefix) of two streams. -/
def firstDiff : List Nat → List Nat → Nat
  | x :: a, y :: b => if x = y then firstDiff a b + 1 else 0
  | _, _ => 0

lemma firstDiff_append : ∀ (t a b : List Nat),
    firstDiff (t ++ a) (t ++ b) = t.length + firstDiff a b := by
  intro t
  induction t with
  | nil => intro a b; simp
  | cons x t ih => intro a b; simp [firstDiff, ih]; omega

lemma firstDiff_lt_of_take_ne : ∀ (k : Nat) (a b : List Nat),
    a.take k ≠ b.take k → firstDiff a b < k := by
  intro k
  induction k with
  | zero => intro a b h; simp at h
  | succ k ih =>
    intro a b h
    match a, b with
    | [], [] => simp at h
    | [], y :: b => simp [firstDiff]
    | x :: a, [] => simp [firstDiff]
    | x :: a, y :: b =>
      by_cases hxy : x = y
      · subst hxy
        have htk : a.take k ≠ b.take k := fun hh => h (by simp [hh])
        have := ih a b htk
        simp [firstDiff]
        omega
      · simp [firstDiff, hxy]

/-- Closed form of the `equalFile` loop on equal-length error-free
streams: the verdict is "equal" exactly for identical contents, and the
chunk-read count stops at the first differing chunk. -/
lemma equalFileAux_spec : ∀ (N : Nat) (a b : List Nat) (r : Nat),
    a.length ≤ N → a.length = b.length →
    equalFileAux a b r =
      if a = b then (Except.ok true, r + (a.length + 4095) / 4096 + 1)
      else (Except.ok false, r + firstDiff a b / 4096 + 1) := by
  intro N
  induction N with
  | zero =>
    intro a b r hN hlen
    have ha : a = [] := List.length_eq_zero.mp (by omega)
    have hb : b = [] := List.length_eq_zero.mp (by omega)
    subst ha; subst hb
    rw [equalFileAux]
    norm_num
  | succ N ih =>
    intro a b r hN hlen
    have hn2 : ¬ ((a.take 4096).length
        ≠ (b.take ((a.take 4096).length)).length) := by
      simp only [List.length_take, ne_eq, not_not]
      omega
    have hch2 : b.take ((a.take 4096).length) = b.take 4096 := by
      rw [List.length_take]
      rcases le_or_lt 4096 a.length with h | h
      · rw [min_eq_left (by omega)]
      · rw [min_eq_right (by omega), hlen, List.take_length,
          List.take_of_length_le (by omega)]
    rw [equalFileAux, if_neg hn2]
    by_cases hch : a.take 4096 = b.take 4096
    · rw [if_neg (by rw [hch2]; simp [hch])]
      by_cases ha : a.isEmpty
      · rw [dif_pos ha]
        have ha' : a = [] := List.isEmpty_iff.mp ha
        have hb' : b = [] := by
          rw [ha'] at hlen
          exact List.length_eq_zero.mp (by simpa using hlen.symm)
        subst ha'; subst hb'
        norm_num
      · rw [dif_neg ha]
        have ha' : a ≠ [] := by
          intro hh; exact ha (by simp [hh])
        have hapos : 0 < a.length := List.length_pos.mpr ha'
        have hdr : b.drop ((a.take 4096).length) = b.drop 4096 := by
          rw [List.length_take]
          rcases le_or_lt 4096 a.length with h | h
          · rw [min_eq_left (by omega)]
          · rw [min_eq_right (by omega), hlen, List.drop_length,
              List.drop_eq_nil_of_le (by omega)]
        rw [hdr, ih (a.drop 4096) (b.drop 4096) (r + 1)
          (by simp only [List.length_drop]; omega)
          (by simp only [List.length_drop]; omega)]
        have htd : a = b ↔ a.drop 4096 = b.drop 4096 := by
          constructor
          · intro hh; rw [hh]
          · intro hh
            conv_lhs => rw [← List.take_append_drop 4096 a]
            conv_rhs => rw [← List.take_append_drop 4096 b]
            rw [hch, hh]
        by_cases hab : a = b
        · rw [if_pos (htd.mp hab), if_pos hab]
          simp only [Prod.mk.injEq, List.length_drop]
          refine ⟨trivial, ?_⟩
          omega
        · have hge : 4096 ≤ a.length := by
            by_contra hlt
            apply hab
            have h1 : a.take 4096 = a := List.take_of_length_le (by omega)
            have h2 : b.take 4096 = b := List.take_of_length_le (by omega)
            rw [h1, h2] at hch
            exact hch
          have hfd : firstDiff a b
              = 4096 + firstDiff (a.drop 4096) (b.drop 4096) := by
            conv_lhs => rw [← List.take_append_drop 4096 a,
              ← List.take_append_drop 4096 b]
            rw [hch, firstDiff_append, List.length_take,
              min_eq_left (by omega)]
          rw [if_neg (fun hh => hab (htd.mpr hh)), if_neg hab]
          simp only [Prod.mk.injEq]
          refine ⟨trivial, ?_⟩
          rw [hfd]
          omega
    · rw [if_pos (by rw [hch2]; exact hch)]
      have hab : a ≠ b := fun hh => hch (by rw [hh])
      rw [if_neg hab]
      have hfd : firstDiff a b < 4096 := firstDiff_lt_of_take_ne 4096 a b hch
      rw [Nat.div_eq_of_lt hfd]

/-- Lists that agree except in the last element differ first at position
`length - 1`. -/
lemma firstDiff_last (l1 l2 : List Nat) (hlen : l1.length = l2.length)
    (h1 : l1 ≠ []) (hdl : l1.dropLast = l2.dropLast)
    (hl : l1.getLast? ≠ l2.getLast?) :
    l1 ≠ l2 ∧ firstDiff l1 l2 = l1.length - 1 := by
  have h2 : l2 ≠ [] := by
    intro hh
    apply h1
    rw [hh] at hlen
    exact List.length_eq_zero.mp (by simpa using hlen)
  have e1 : l1.dropLast ++ [l1.getLast h1] = l1 := List.dropLast_append_getLast h1
  have e2 : l2.dropLast ++ [l2.getLast h2] = l2 := List.dropLast_append_getLast h2
  have hx : l1.getLast h1 ≠ l2.getLast h2 := by
    intro hh
    apply hl
    rw [List.getLast?_eq_getLast l1 h1, List.getLast?_eq_getLast l2 h2, hh]
  refine ⟨fun hh => hl (by rw [hh]), ?_⟩
  conv_lhs => rw [← e1, ← e2]
  rw [hdl, firstDiff_append]
  simp only [firstDiff, if_neg hx, List.length_dropLast, hlen]
  omega

/-- C4: for two error-free equal-length byte streams, `equalFile` returns
the "equal" verdict `(true, nil)` iff the contents are byte-identical; on
any byte mismatch it returns `(false, nil)` having read only the chunks
up to and including the first differing one; two empty streams compare
equal; and two equal-length streams differing only in the last byte
compare not-equal after all prior chunks have been read. -/
theorem equalFile_spec (l1 l2 : List Nat) (hlen : l1.length = l2.length) :
    (equalFile l1 l2 = .ok true ↔ l1 = l2) ∧
    (l1 ≠ l2 → equalFile l1 l2 = .ok false ∧
      equalFileReads l1 l2 = firstDiff l1 l2 / 4096 + 1) ∧
    equalFile ([] : List Nat) [] = .ok true ∧
    (l1 ≠ [] → l1.dropLast = l2.dropLast → l1.getLast? ≠ l2.getLast? →
      equalFile l1 l2 = .ok false ∧
      equalFileReads l1 l2 = (l1.length - 1) / 4096 + 1) := by
  have hspec := equalFileAux_spec l1.length l1 l2 0 le_rfl hlen
  have hnil := equalFileAux_spec 0 [] [] 0 le_rfl rfl
  refine ⟨?_, ?_, ?_, ?_⟩
  · unfold equalFile
    rw [hspec]
    by_cases hab : l1 = l2
    · simp [hab]
    · simp [hab]
  · intro hab
    unfold equalFile equalFileReads
    rw [hspec, if_neg hab]
    exact ⟨rfl, by omega⟩
  · unfold equalFile
    rw [hnil]
    norm_num
  · intro h1 hdl hl
    obtain ⟨hab, hfd⟩ := firstDiff_last l1 l2 hlen h1 hdl hl
    unfold equalFile equalFileReads
    rw [hspec, if_neg hab, hfd]
    exact ⟨rfl, by omega⟩

/-- Witness for C4 at the one-byte streams `[1]` and `[2]`. -/
theorem equalFile_spec_witness :
    (equalFile [1] [2] = .ok true ↔ ([1] : List Nat) = [2]) ∧
    (([1] : List Nat) ≠ [2] → equalFile [1] [2] = .ok false ∧
      equalFileReads [1] [2] = firstDiff [1] [2] / 4096 + 1) ∧
    equalFile ([] : List Nat) [] = .ok true ∧
    (([1] : List Nat) ≠ [] →
      ([1] : List Nat).dropLast = ([2] : List Nat).dropLast →
      ([1] : List Nat).getLast? ≠ ([2] : List Nat).getLast? →
      equalFile [1] [2] = .ok false ∧
      equalFileReads [1] [2] = (([1] : List Nat).length - 1) / 4096 + 1) :=
  equalFile_spec [1] [2] rfl

/-! ## FilenameCounterParser: `dup.SplitFileBaseName` (part_000 lines 385-440)

Strings are embedded as `List Char`.  The two anchored regular
expressions `windowsPattern = ` - Copy(?: \((\d+)\))?$`` and
`chromePattern = ` \((\d+)\)$`` are embedded as suffix matchers: an
anchored match is a tail of the subject of the shape ` - Copy`,
` - Copy (D)` or ` (D)` (`D` a nonempty digit run), and a string can
have at most one tail of each pattern's shape (a longer such tail would
have to contain a non-digit inside its digit run), so Go's leftmost
match is exactly that tail. -/

/-- `listStartsWith pat l` holds when `pat` is an initial segment of `l`. -/
def listStartsWith : List Char → List Char → Bool
  | [], _ => true
  | _ :: _, [] => false
  | x :: xs, y :: ys => x == y && listStartsWith xs ys

/-- Numeric value of a decimal digit run, as accumulated by
`strconv.Atoi`. -/
def digitsToNat (l : List Char) : Nat :=
  l.foldl (fun acc c => 10 * acc + (c.toNat - '0'.toNat)) 0

/-- The value `n` in `n, _ := strconv.Atoi(wmatch[1])` (part_000 lines
405, 422) for an all-digit (possibly empty) capture, the error being
discarded: an empty capture is a syntax error and yields 0; a capture
overflowing `int64` yields the clamped `math.MaxInt64` (Go's `ParseInt`
returns the clamped maximum together with `ErrRange`, and the error is
ignored). -/
def goAtoiDigits (l : List Char) : Int :=
  if l = [] then 0
  else min (digitsToNat l : Int) (2 ^ 63 - 1)

/-- Anchored match of a tail of the shape `pat ++ D ++ ")"` (`D` a
nonempty digit run): the common core of both copy-suffix patterns.
Returns the matched tail and the captured digit run. -/
def parenMatch (pat s : List Char) : Option (List Char × List Char) :=
  if s.reverse.head? = some ')' then
    if ((s.reverse.tail.takeWhile Char.isDigit).isEmpty : Bool) then none
    else if listStartsWith pat.reverse
        (s.reverse.tail.dropWhile Char.isDigit) then
      some (pat ++ (s.reverse.tail.takeWhile Char.isDigit).reverse ++ [')'],
        (s.reverse.tail.takeWhile Char.isDigit).reverse)
    else none
  else none

/-- `windowsPattern.FindStringSubmatch` (part_000 line 439): returns
`(wmatch[0], wmatch[1])` — the matched suffix and the captured digits
(empty when the optional `(N)` group is absent; a string ending in `)`
cannot also end in ` - Copy`, so checking the paren shape first is
equivalent to the regex's preference for the optional group). -/
def windowsMatch (s : List Char) : Option (List Char × List Char) :=
  match parenMatch " - Copy (".data s with
  | some r => some r
  | none =>
    if listStartsWith (" - Copy".data.reverse) s.reverse then
      some (" - Copy".data, [])
    else none

/-- `chromePattern.FindStringSubmatch` (part_000 line 440): returns
`(cmatch[0], cmatch[1])`. -/
def chromeMatch (s : List Char) : Option (List Char × List Char) :=
  parenMatch " (".data s

/-- `strings.TrimSuffix` (part_000 lines 404, 421). -/
def trimSuffix (p m : List Char) : List Char :=
  if listStartsWith m.reverse p.reverse then p.take (p.length - m.length)
  else p

/-- The stripping loop of `SplitFileBaseName` (part_000 lines 401-437):
try the windows pattern first (`continue` on a hit), then the chrome
pattern, accumulating the copy counter; stop when neither matches.  The
Go loop is unbounded; here it carries fuel, which never runs out when
started with more fuel than the prefix length because every match is a
nonempty suffix of the prefix (see `stripLoop_fuel`). -/
def stripLoop : Nat → List Char → Int → List Char × Int
  | 0, p, c => (p, c)
  | fuel + 1, p, c =>
    match windowsMatch p with
    | some (m, d) =>
        let n := goAtoiDigits d
        stripLoop fuel (trimSuffix p m)
          (if n = 0 then c + 1 else if n = 1 then c + 2 else c + n)
    | none =>
      match chromeMatch p with
      | some (m, d) =>
          let n := goAtoiDigits d
          stripLoop fuel (trimSuffix p m) (if n = 0 then c + 1 else c + n)
      | none => (p, c)

/-- `filepath.Ext` (part_000 line 399): the suffix from the last dot in
the final path element; empty when no dot occurs after the last
separator. -/
def goExt (s : List Char) : List Char :=
  match s.reverse.dropWhile (fun c => !(c == '.') && !(c == '/')) with
  | '.' :: _ =>
      ((s.reverse.takeWhile (fun c => !(c == '.') && !(c == '/'))) ++ ['.']).reverse
  | _ => []

/-- The parse computed by `SplitFileBaseName` before the deferred
degenerate-result guard runs: extension split off by `goExt`, prefix
stripped of copy suffixes, accumulated counter. -/
def splitParsed (name : List Char) : List Char × Int × List Char :=
  (let ext := goExt name
   let p := name.take (name.length - ext.length)
   let pc := stripLoop (p.length + 1) p 0
   (pc.1, pc.2, ext))

/-- Embedding of `dup.SplitFileBaseName` (part_000 lines 389-437),
including the deferred guard (lines 390-398): if the returned prefix and
extension are both empty, the parse is discarded and the original name
is returned with counter 0. -/
def SplitFileBaseName (name : List Char) : List Char × Int × List Char :=
  let r := splitParsed name
  if r.1 = [] ∧ r.2.2 = [] then (name, 0, []) else r

/-! ### Every pattern match is a nonempty suffix, so the loop fuel never
runs out -/

lemma listStartsWith_iff : ∀ (xs ys : List Char),
    listStartsWith xs ys = true ↔ ∃ t, ys = xs ++ t := by
  intro xs
  induction xs with
  | nil => intro ys; simp [listStartsWith]
  | cons x xs ih =>
    intro ys
    match ys with
    | [] =>
      simp only [listStartsWith]
      constructor
      · intro h; exact absurd h (by simp)
      · rintro ⟨t, ht⟩; exact absurd ht (by simp)
    | y :: ys =>
      simp only [listStartsWith, Bool.and_eq_true, beq_iff_eq, ih,
        List.cons_append, List.cons.injEq]
      constructor
      · rintro ⟨h1, t, ht⟩; exact ⟨t, h1.symm, ht⟩
      · rintro ⟨t, h1, ht⟩; exact ⟨h1.symm, t, ht⟩

lemma trimSuffix_of_suffix (t m : List Char) : trimSuffix (t ++ m) m = t := by
  unfold trimSuffix
  rw [if_pos]
  · rw [List.length_append, Nat.add_sub_cancel, List.take_left]
  · rw [List.reverse_append]
    exact (listStartsWith_iff _ _).mpr ⟨t.reverse, rfl⟩

lemma parenMatch_suffix {pat s m d : List Char}
    (h : parenMatch pat s = some (m, d)) : (∃ t, s = t ++ m) ∧ m ≠ [] := by
  unfold parenMatch at h
  rcases hs : s.reverse with _ | ⟨c, r1⟩
  · rw [hs] at h; simp at h
  · rw [hs] at h
    simp only [List.head?_cons, List.tail_cons, Option.some.injEq] at h
    by_cases hc : c = ')'
    · rw [if_pos hc] at h
      by_cases h2 : ((r1.takeWhile Char.isDigit).isEmpty : Bool)
      · rw [if_pos h2] at h; exact absurd h (by simp)
      · rw [if_neg h2] at h
        by_cases h3 : listStartsWith pat.reverse
            (r1.dropWhile Char.isDigit) = true
        · rw [if_pos h3] at h
          have hm : pat ++ (r1.takeWhile Char.isDigit).reverse ++ [')']
              = m := by
            have h' := Option.some.inj h
            exact congrArg Prod.fst h'
          obtain ⟨t₀, ht₀⟩ := (listStartsWith_iff _ _).mp h3
          have hr1 : r1 = r1.takeWhile Char.isDigit ++ (pat.reverse ++ t₀) := by
            conv_lhs => rw [← List.takeWhile_append_dropWhile
              (p := Char.isDigit) (l := r1)]
            rw [ht₀]
          have hsdec : s = t₀.reverse
              ++ (pat ++ (r1.takeWhile Char.isDigit).reverse ++ [')']) := by
            have h4 := congrArg List.reverse hs
            rw [List.reverse_reverse] at h4
            rw [h4, hc]
            conv_lhs => rw [hr1]
            simp [List.reverse_append, List.append_assoc]
          exact ⟨⟨t₀.reverse, by rw [hsdec, hm]⟩, by rw [← hm]; simp⟩
        · rw [if_neg h3] at h; exact absurd h (by simp)
    · rw [if_neg hc] at h; exact absurd h (by simp)

lemma windowsMatch_suffix {s m d : List Char}
    (h : windowsMatch s = some (m, d)) : (∃ t, s = t ++ m) ∧ m ≠ [] := by
  unfold windowsMatch at h
  rcases hp : parenMatch " - Copy (".data s with _ | r
  · rw [hp] at h
    by_cases h2 : listStartsWith (" - Copy".data.reverse) s.reverse = true
    · rw [if_pos h2] at h
      have hm : " - Copy".data = m := by
        have := Option.some.inj h
        exact congrArg Prod.fst this
      obtain ⟨t₀, ht₀⟩ := (listStartsWith_iff _ _).mp h2
      have hs2 : s = t₀.reverse ++ " - Copy".data := by
        have hrr := congrArg List.reverse ht₀
        rw [List.reverse_reverse] at hrr
        rw [hrr]
        simp
      exact ⟨⟨t₀.reverse, by rw [hs2, hm]⟩, by rw [← hm]; simp⟩
    · rw [if_neg h2] at h; exact absurd h (by simp)
  · rw [hp] at h
    have hr : r = (m, d) := Option.some.inj h
    subst hr
    exact parenMatch_suffix hp

lemma chromeMatch_suffix {s m d : List Char}
    (h : chromeMatch s = some (m, d)) : (∃ t, s = t ++ m) ∧ m ≠ [] :=
  parenMatch_suffix h

/-- The stripping loop's result does not depend on the fuel, as long as
the fuel exceeds the prefix length: every match strips a nonempty suffix,
so the loop runs at most `p.length` times before neither pattern
matches. -/
lemma stripLoop_fuel : ∀ (L : Nat) (p : List Char) (c : Int) (f1 f2 : Nat),
    p.length ≤ L → p.length < f1 → p.length < f2 →
    stripLoop f1 p c = stripLoop f2 p c := by
  intro L
  induction L with
  | zero =>
    intro p c f1 f2 hL h1 h2
    have hp : p = [] := List.length_eq_zero.mp (by omega)
    subst hp
    obtain ⟨a, rfl⟩ : ∃ a, f1 = a + 1 := ⟨f1 - 1, by omega⟩
    obtain ⟨b, rfl⟩ : ∃ b, f2 = b + 1 := ⟨f2 - 1, by omega⟩
    rfl
  | succ L ih =>
    intro p c f1 f2 hL h1 h2
    obtain ⟨a, rfl⟩ : ∃ a, f1 = a + 1 := ⟨f1 - 1, by omega⟩
    obtain ⟨b, rfl⟩ : ∃ b, f2 = b + 1 := ⟨f2 - 1, by omega⟩
    rw [stripLoop, stripLoop]
    rcases hw : windowsMatch p with _ | ⟨m, d⟩
    · rcases hc : chromeMatch p with _ | ⟨m, d⟩
      · rfl
      · obtain ⟨⟨t, ht⟩, hm⟩ := chromeMatch_suffix hc
        have htrim : trimSuffix p m = t := by rw [ht]; exact trimSuffix_of_suffix t m
        have hlt : t.length < p.length := by
          rw [ht, List.length_append]
          have : 0 < m.length := List.length_pos.mpr hm
          omega
        simp only [htrim]
        exact ih t _ a b (by omega) (by omega) (by omega)
    · obtain ⟨⟨t, ht⟩, hm⟩ := windowsMatch_suffix hw
      have htrim : trimSuffix p m = t := by rw [ht]; exact trimSuffix_of_suffix t m
      have hlt : t.length < p.length := by
        rw [ht, List.length_append]
        have : 0 < m.length := List.length_pos.mpr hm
        omega
      simp only [htrim]
      exact ih t _ a b (by omega) (by omega) (by omega)

/-- C6: the literal filename round-trip cases of the specification,
matching `TestSplitBaseFilename`. -/
theorem split_cases :
    SplitFileBaseName "flowers.jpg".data = ("flowers".data, 0, ".jpg".data) ∧
    SplitFileBaseName "flowers (1).jpg".data
      = ("flowers".data, 1, ".jpg".data) ∧
    SplitFileBaseName "flowers - Copy (1).jpg".data
      = ("flowers".data, 2, ".jpg".data) ∧
    SplitFileBaseName "flowers - Copy (3) - Copy.jpg".data
      = ("flowers".data, 4, ".jpg".data) ∧
    SplitFileBaseName "flowers (2) - Copy (4) - Copy - Copy.jpg".data
      = ("flowers".data, 8, ".jpg".data) ∧
    SplitFileBaseName ".env".data = ([], 0, ".env".data) ∧
    SplitFileBaseName "flowers - Copy (-1).jpg".data
      = ("flowers - Copy (-1)".data, 0, ".jpg".data) := by
  decide

/-- C7 (amended): the parse is discarded — the original name returned
with counter 0 and empty extension — exactly when the prefix left after
copy-suffix stripping is empty AND the extension is empty; whenever the
stripped prefix or the extension is non-empty, the parse is returned
undiscarded.  (The guard tests the prefix after stripping, not the
prefix immediately after extension-splitting — see the
counterexample.) -/
theorem split_guard (name : List Char) :
    ((splitParsed name).1 = [] → (splitParsed name).2.2 = [] →
      SplitFileBaseName name = (name, 0, [])) ∧
    ((splitParsed name).1 ≠ [] ∨ (splitParsed name).2.2 ≠ [] →
      SplitFileBaseName name = splitParsed name) := by
  unfold SplitFileBaseName
  constructor
  · intro h1 h2
    rw [if_pos ⟨h1, h2⟩]
  · intro h
    rw [if_neg (by tauto)]

/-- Witness for C7 at `".env"`: the extension is non-empty, so the parse
`("", 0, ".env")` is returned undiscarded. -/
theorem split_guard_witness :
    SplitFileBaseName ".env".data = splitParsed ".env".data :=
  (split_guard _).2 (Or.inr (by decide))

/-- C7 fails as stated: for `" - Copy"`, extension-splitting leaves the
non-empty prefix `" - Copy"` (so by the claim the stripped parse
`("", 1, "")` would be returned undiscarded), yet the code discards the
parse — the guard tests the prefix after stripping, which is empty. -/
theorem split_guard_counterexample :
    goExt " - Copy".data = [] ∧
    " - Copy".data.take
      (" - Copy".data.length - (goExt " - Copy".data).length) ≠ [] ∧
    splitParsed " - Copy".data = ([], 1, []) ∧
    SplitFileBaseName " - Copy".data = (" - Copy".data, 0, []) ∧
    SplitFileBaseName " - Copy".data ≠ splitParsed " - Copy".data := by
  decide

/-- C8 (amended): `SplitFileBaseName` never raises on a matched
parenthesised capture; an absent capture (the bare ` - Copy` form, whose
submatch is the empty string, a syntax error for `Atoi`) yields `N = 0`
and adds exactly 1; but a capture whose digits overflow `int64` is NOT
treated as `N = 0`: Go's `Atoi` returns the clamped `math.MaxInt64`
alongside the discarded error, and that clamped value is what the
counter accumulates. -/
theorem atoi_clamp (ds : List Char) (hne : ds ≠ [])
    (hbig : 2 ^ 63 ≤ digitsToNat ds) :
    goAtoiDigits ds = 2 ^ 63 - 1 ∧
    goAtoiDigits [] = 0 ∧
    SplitFileBaseName "x - Copy.jpg".data = ("x".data, 1, ".jpg".data) := by
  refine ⟨?_, by decide, by decide⟩
  unfold goAtoiDigits
  rw [if_neg hne]
  have : ((2:Int) ^ 63 - 1) ≤ (digitsToNat ds : Int) := by
    have : ((2:Int) ^ 63) ≤ (digitsToNat ds : Int) := by exact_mod_cast hbig
    omega
  omega

/-- Witness for C8 at a twenty-nines capture. -/
theorem atoi_clamp_witness :
    goAtoiDigits "99999999999999999999".data = 2 ^ 63 - 1 ∧
    goAtoiDigits [] = 0 ∧
    SplitFileBaseName "x - Copy.jpg".data = ("x".data, 1, ".jpg".data) :=
  atoi_clamp "99999999999999999999".data (by decide) (by decide)

/-- C8 fails as stated: an overflowing capture contributes the clamped
`MaxInt64`, not 1, to the counter. -/
theorem atoi_overflow_counterexample :
    SplitFileBaseName "x - Copy (99999999999999999999).jpg".data
      = ("x".data, 9223372036854775807, ".jpg".data) ∧
    (9223372036854775807 : Int) ≠ 1 := by
  decide

/-! ## SelectionHeuristic: `dup.selectDup` (part_000 lines 327-383)

File metadata (`fs.FileInfo`) is embedded as a record; `Stat` is
error-free.  `dup.isDigits` is success of `strconv.Atoi`, which accepts
an optional sign and rejects values outside `int64` — it is NOT the
"composed entirely of decimal digits" predicate of the specification. -/

/-- The metadata of one open file as observed through `Stat()`. -/
structure FileInfo where
  name : List Char
  size : Int
  dir : Bool
  symlink : Bool
  modTime : Int
  deriving DecidableEq, Repr

/-- The `errImpossible` defensive errors of `selectDup` (part_000 lines
337-348), carrying the wrapped message. -/
inductive SelError where
  | impossible (msg : String)
  deriving DecidableEq, Repr

/-- Success of `strconv.Atoi s` (i.e. `err == nil`): an optional sign
followed by a nonempty digit run whose value fits in `int64`. -/
def atoiOk (s : List Char) : Bool :=
  match s with
  | [] => false
  | c :: rest =>
    let digits := if c = '-' ∨ c = '+' then rest else s
    let bound : Nat := if c = '-' then 2 ^ 63 else 2 ^ 63 - 1
    !digits.isEmpty && digits.all Char.isDigit
      && decide (digitsToNat digits ≤ bound)

/-- Embedding of `dup.isDigits` (part_000 lines 442-447):
`strconv.Atoi(s)` succeeded. -/
def isDigits (s : List Char) : Bool := atoiOk s

/-- The specification's rule-3 predicate: "composed entirely of decimal
digits". -/
def allDigits (s : List Char) : Bool := !s.isEmpty && s.all Char.isDigit

instance : DecidableEq (Except SelError selection) := fun x y =>
  match x, y with
  | .ok a, .ok b =>
    if h : a = b then isTrue (by rw [h]) else isFalse (by simp [h])
  | .error a, .error b =>
    if h : a = b then isTrue (by rw [h]) else isFalse (by simp [h])
  | .ok _, .error _ => isFalse (by simp)
  | .error _, .ok _ => isFalse (by simp)

/-- Embedding of `dup.selectDup` (part_000 lines 328-383): defensive
precondition checks, then the tie-breaking ladder over the two parsed
filenames, the modification times, and the final `Right` default. -/
def selectDup (f1 f2 : FileInfo) : Except SelError selection :=
  if f1.size ≠ f2.size then
    .error (.impossible "comparison on differently sized files")
  else if f1.size = 0 ∨ f2.size = 0 then
    .error (.impossible "duplicate selection on empty files")
  else if f1.dir ∨ f2.dir then
    .error (.impossible "duplicate comparison contained a directory")
  else if f1.symlink ∨ f2.symlink then
    .error (.impossible "duplicate comparison contained a symlink")
  else
    if (SplitFileBaseName f1.name).2.1 > (SplitFileBaseName f2.name).2.1 then
      .ok selection.Left
    else if (SplitFileBaseName f1.name).2.1 < (SplitFileBaseName f2.name).2.1 then
      .ok selection.Right
    else if (SplitFileBaseName f1.name).2.2 ≠ [] ∧
        (SplitFileBaseName f2.name).2.2 = [] then
      .ok selection.Right
    else if (SplitFileBaseName f1.name).2.2 = [] ∧
        (SplitFileBaseName f2.name).2.2 ≠ [] then
      .ok selection.Left
    else if isDigits (SplitFileBaseName f1.name).1 ∧
        ¬ isDigits (SplitFileBaseName f2.name).1 then
      .ok selection.Left
    else if ¬ isDigits (SplitFileBaseName f1.name).1 ∧
        isDigits (SplitFileBaseName f2.name).1 then
      .ok selection.Right
    else if f1.modTime < f2.modTime then
      .ok selection.Right
    else if f2.modTime < f1.modTime then
      .ok selection.Left
    else
      .ok selection.Right

/-- The specification's decision order (§4.4 rules 1-5), with rule 3
amended to use the predicate the code actually applies: success of
`strconv.Atoi` (`isDigits`), not "composed entirely of decimal
digits". -/
def selectDupRules (f1 f2 : FileInfo) : selection :=
  if (SplitFileBaseName f1.name).2.1 > (SplitFileBaseName f2.name).2.1 then
    selection.Left
  else if (SplitFileBaseName f1.name).2.1 < (SplitFileBaseName f2.name).2.1 then
    selection.Right
  else if (SplitFileBaseName f1.name).2.2 ≠ [] ∧
      (SplitFileBaseName f2.name).2.2 = [] then
    selection.Right
  else if (SplitFileBaseName f1.name).2.2 = [] ∧
      (SplitFileBaseName f2.name).2.2 ≠ [] then
    selection.Left
  else if isDigits (SplitFileBaseName f1.name).1 ∧
      ¬ isDigits (SplitFileBaseName f2.name).1 then
    selection.Left
  else if ¬ isDigits (SplitFileBaseName f1.name).1 ∧
      isDigits (SplitFileBaseName f2.name).1 then
    selection.Right
  else if f1.modTime < f2.modTime then
    selection.Right
  else if f2.modTime < f1.modTime then
    selection.Left
  else
    selection.Right

/-- The specification's decision order exactly as written, rule 3 using
"composed entirely of decimal digits" (`allDigits`).  Used to exhibit
where the claim diverges from the code. -/
def selectDupSpecLiteral (f1 f2 : FileInfo) : selection :=
  if (SplitFileBaseName f1.name).2.1 > (SplitFileBaseName f2.name).2.1 then
    selection.Left
  else if (SplitFileBaseName f1.name).2.1 < (SplitFileBaseName f2.name).2.1 then
    selection.Right
  else if (SplitFileBaseName f1.name).2.2 ≠ [] ∧
      (SplitFileBaseName f2.name).2.2 = [] then
    selection.Right
  else if (SplitFileBaseName f1.name).2.2 = [] ∧
      (SplitFileBaseName f2.name).2.2 ≠ [] then
    selection.Left
  else if allDigits (SplitFileBaseName f1.name).1 ∧
      ¬ allDigits (SplitFileBaseName f2.name).1 then
    selection.Left
  else if ¬ allDigits (SplitFileBaseName f1.name).1 ∧
      allDigits (SplitFileBaseName f2.name).1 then
    selection.Right
  else if f1.modTime < f2.modTime then
    selection.Right
  else if f2.modTime < f1.modTime then
    selection.Left
  else
    selection.Right

/-- C5 (amended): under the defensive preconditions (equal nonzero
sizes, neither a directory nor a symlink), `selectDup` applies exactly
the five-rule decision ladder in order — with rule 3 deciding by
`strconv.Atoi` success (optional sign, `int64` range) rather than by
"composed entirely of decimal digits". -/
theorem selectDup_rules (f1 f2 : FileInfo) (hsz : f1.size = f2.size)
    (h1 : f1.size ≠ 0) (h2 : f2.size ≠ 0)
    (hd1 : f1.dir = false) (hd2 : f2.dir = false)
    (hs1 : f1.symlink = false) (hs2 : f2.symlink = false) :
    selectDup f1 f2 = .ok (selectDupRules f1 f2) := by
  unfold selectDup selectDupRules
  rw [if_neg (by simp [hsz]), if_neg (by tauto), if_neg (by simp [hd1, hd2]),
    if_neg (by simp [hs1, hs2])]
  split_ifs <;> rfl

/-- Witness for C5: two same-size plain files. -/
theorem selectDup_rules_witness :
    selectDup (FileInfo.mk "a.jpg".data 5 false false 0)
        (FileInfo.mk "a (1).jpg".data 5 false false 0)
      = .ok (selectDupRules (FileInfo.mk "a.jpg".data 5 false false 0)
          (FileInfo.mk "a (1).jpg".data 5 false false 0)) :=
  selectDup_rules _ _ rfl (by decide) (by decide) rfl rfl rfl rfl

/-- C5 fails as stated: for `-1.jpg` (older) against `a.jpg` (newer),
with equal counters and equal extensions, the specification's literal
rule 3 fires for neither name (`"-1"` is not composed entirely of
digits), so rule 4 would keep the older `-1.jpg` and select `a.jpg` —
`Right`.  The code's `isDigits` accepts `"-1"` (signed `Atoi` parse), so
it selects `-1.jpg` — `Left`. -/
theorem selectDup_digits_counterexample :
    selectDup (FileInfo.mk "-1.jpg".data 5 false false 0)
        (FileInfo.mk "a.jpg".data 5 false false 1)
      = .ok selection.Left ∧
    selectDupSpecLiteral (FileInfo.mk "-1.jpg".data 5 false false 0)
        (FileInfo.mk "a.jpg".data 5 false false 1)
      = selection.Right ∧
    selection.Left ≠ selection.Right := by
  decide

/-! ## The `errImpossible.Error` method (part_000 lines 453-458)

`func (e errImpossible) Error() string` returns
`"error should not be possible: " + e.Error()` — it recurses on the
SAME receiver (the intended call was `e.e.Error()`), so it never
returns.  The recursion is modelled with explicit call-depth fuel, each
Go call consuming one stack frame; `none` means no answer was produced
within that depth. -/

/-- `errImpossible.Error` with call-depth fuel.  `wrapped` is the
message of the wrapped error `e.e`, which the buggy method never
consults. -/
def errImpossibleError (wrapped : String) : Nat → Option String
  | 0 => none
  | fuel + 1 =>
    (errImpossibleError wrapped fuel).map
      (fun s => "error should not be possible: " ++ s)

/-- C9: the impossible-precondition error is produced where the
specification says (here: empty files reaching `selectDup`), but its
`Error` method never terminates at any call depth — it recurses on
itself instead of on the wrapped error — so the error can never be
reported and the run crashes with a stack overflow. -/
theorem errImpossible_nontermination :
    selectDup (FileInfo.mk "a.jpg".data 0 false false 0)
        (FileInfo.mk "b.jpg".data 0 false false 0)
      = .error (SelError.impossible "duplicate selection on empty files") ∧
    ∀ (wrapped : String) (fuel : Nat),
      errImpossibleError wrapped fuel = none := by
  refine ⟨by decide, ?_⟩
  intro wrapped fuel
  induction fuel with
  | zero => rfl
  | succ n ih => simp [errImpossibleError, ih]

end Dedup
